import Mathlib

/-!
Verification development for the gochunker relay service
(`controller_service.go`).

The service relays JSON events from one upstream producer to two
downstream providers.  A `Controller` owns an ingress connection, a
shared append-only event buffer, a token-bucket `RateLimiter`, and a
one-shot failover channel.  The ingress loop decodes each frame as an
`Event` and appends it; `startWorker` drains the buffer in index order
under rate control, optionally fires the failover channel, and then
relays further ingress frames verbatim.

The embedding below models the sequential behaviour of each loop as a
pure function producing a trace of actions, and the two-worker wiring
of `main` as a small-step transition system over interleavings; the
scheduling environment (rate-limiter responses seen by a worker, write
outcomes, the post-drain frame stream) is passed in explicitly.
-/

/-- Events carried by the relay: `type Event struct { ID, Payload string }`
with JSON field tags `id` and `payload`. -/
structure Event where
  ID : String
  Payload : String
deriving DecidableEq, Repr

/-- JSON values, as seen by `encoding/json` after syntactic parsing. -/
inductive Json where
  | null : Json
  | jbool : Bool → Json
  | jnum : Int → Json
  | jstr : String → Json
  | jarr : List Json → Json
  | jobj : List (String × Json) → Json

/-- An inbound wire frame: either bytes that are not syntactically valid
JSON, or a parsed JSON value.  The syntactic parser itself belongs to the
external `encoding/json` library. -/
inductive Frame where
  | malformed : String → Frame
  | json : Json → Frame

/-- ASCII case folding of a character code, as in `encoding/json` field
name resolution. -/
def foldCode (c : Char) : Nat :=
  if 65 ≤ c.toNat ∧ c.toNat ≤ 90 then c.toNat + 32 else c.toNat

/-- Case-insensitive match of an object key against a struct field tag. -/
def keyMatches (k name : String) : Bool :=
  decide (k.data.map foldCode = name.data.map foldCode)

/-- Decoding one JSON object key into the `Event` struct, following Go
`encoding/json` field resolution: keys match the `id` / `payload` tags
case-insensitively, a JSON `null` value leaves the field untouched, a
value of the wrong type is an `UnmarshalTypeError`, and unknown keys are
ignored. -/
def applyField (ev : Event) (kv : String × Json) : Except String Event :=
  if keyMatches kv.1 "id" then
    match kv.2 with
    | Json.jstr s => Except.ok { ev with ID := s }
    | Json.null => Except.ok ev
    | _ => Except.error "cannot unmarshal value into field ID"
  else if keyMatches kv.1 "payload" then
    match kv.2 with
    | Json.jstr s => Except.ok { ev with Payload := s }
    | Json.null => Except.ok ev
    | _ => Except.error "cannot unmarshal value into field Payload"
  else
    Except.ok ev

/-- Folds `applyField` over the keys of a JSON object, in order; a later
duplicate key overwrites an earlier one, as in Go. -/
def applyFields : Event → List (String × Json) → Except String Event
  | ev, [] => Except.ok ev
  | ev, kv :: rest =>
    match applyField ev kv with
    | Except.ok ev2 => applyFields ev2 rest
    | Except.error e => Except.error e

/-- Behaviour of `json.Unmarshal(msg, &event)` on a syntactically valid JSON value: a
top-level `null` is a no-op success, an object populates the struct field
by field starting from the zero value, and any other JSON kind is a type
error. -/
def unmarshalEvent : Json → Except String Event
  | Json.null => Except.ok ⟨"", ""⟩
  | Json.jobj kvs => applyFields ⟨"", ""⟩ kvs
  | _ => Except.error "cannot unmarshal value into Event"

/-- Full decode of an inbound frame into an `Event`: syntactically invalid
bytes are a syntax error, otherwise `unmarshalEvent`. -/
def decodeFrame : Frame → Except String Event
  | Frame.malformed _ => Except.error "invalid character in message"
  | Frame.json j => unmarshalEvent j

/-- Whether a frame decodes successfully. -/
def decodeOk (f : Frame) : Bool :=
  match decodeFrame f with
  | Except.ok _ => true
  | Except.error _ => false

/-- One iteration of the ingress loop body on a successfully read frame:
append the decoded event under the controller lock, or drop the frame on
a decode error (`continue`). -/
def processFrame (events : List Event) (f : Frame) : List Event :=
  match decodeFrame f with
  | Except.ok e => events ++ [e]
  | Except.error _ => events

/-- What `appConn.ReadMessage` yields to the ingress loop: a frame, or a
read error (which includes orderly close). -/
inductive ReadResult where
  | frame : Frame → ReadResult
  | readErr : ReadResult

/-- The ingress loop `Controller.readEventsFromApp`: repeatedly read a frame, drop it on
decode failure, append the decoded event otherwise; a read error ends the
loop permanently.  `events` is the buffer contents when the loop starts,
and the result is the buffer when the loop ends. -/
def readEventsFromApp (events : List Event) : List ReadResult → List Event
  | [] => events
  | ReadResult.readErr :: _ => events
  | ReadResult.frame f :: rest => readEventsFromApp (processFrame events f) rest

/-- Number of frames the ingress loop consumes before stopping: every
frame before the first read error, regardless of decode failures. -/
def framesConsumed : List ReadResult → Nat
  | [] => 0
  | ReadResult.readErr :: _ => 0
  | ReadResult.frame _ :: rest => framesConsumed rest + 1

/-- The events decoded from a frame list, in arrival order, skipping
frames that fail to decode. -/
def validEvents : List Frame → List Event
  | [] => []
  | f :: rest =>
    match decodeFrame f with
    | Except.ok e => e :: validEvents rest
    | Except.error _ => validEvents rest

/-- The token bucket of the service.  `tokens` and `maxAllowed` are Go
`int`s; the mutex and the ticker are scheduling artifacts, so a refill
tick is modelled as an explicit transition. -/
structure RateLimiter where
  tokens : Int
  maxAllowed : Int
deriving DecidableEq, Repr

/-- The constructor `NewRateLimiter(max, interval)`: starts full. -/
def NewRateLimiter (max : Int) : RateLimiter :=
  { tokens := max, maxAllowed := max }

/-- One refill tick: `rl.tokens = rl.maxAllowed`, a full reset regardless
of how many tokens were consumed. -/
def RateLimiter.refill (rl : RateLimiter) : RateLimiter :=
  { rl with tokens := rl.maxAllowed }

/-- The gate `RateLimiter.Allow`: if `tokens > 0`, decrement and grant, else deny;
returns the grant decision and the successor state. -/
def RateLimiter.Allow (rl : RateLimiter) : Bool × RateLimiter :=
  if 0 < rl.tokens then (true, { rl with tokens := rl.tokens - 1 })
  else (false, rl)

/-- The results of `n` consecutive `Allow()` calls, with the final
limiter state, and no refill tick in between. -/
def allowSeq : RateLimiter → Nat → List Bool × RateLimiter
  | rl, 0 => ([], rl)
  | rl, n + 1 =>
    let r := rl.Allow
    let rest := allowSeq r.2 n
    (r.1 :: rest.1, rest.2)

/-- Number of granted permits in a list of `Allow()` results. -/
def grants (bs : List Bool) : Nat := bs.count true

/-- Observable actions of one provider worker, in the order the worker
performs them. -/
inductive Act where
  | allowGranted : Act
  | allowDenied : Act
  | sleepBackoff : Nat → Act
  | send : Event → Act
  | sendFail : Event → Act
  | finishDrain : Act
  | fireSignal : Act
  | dialBackup : Act
  | forward : Frame → Act
  | forwardFail : Act
  | readFail : Act

/-- The fixed backoff of `time.Sleep(1 * time.Minute)` on a rate-limit
denial, in seconds. -/
def backoffSeconds : Nat := 60

/-- The permit loop `for !c.ratelimiter.Allow() { time.Sleep(...) }`,
given the number `d` of denials the limiter answers before it grants. -/
def awaitPermit : Nat → List Act
  | 0 => [Act.allowGranted]
  | d + 1 => Act.allowDenied :: Act.sleepBackoff backoffSeconds :: awaitPermit d

/-- The drain loop `for i := 0; i < len(c.events); i++ { ... }` of
`Controller.startWorker`, over the buffer contents `buf`.  For the event
at schedule index `k`, `d k` is the number of rate-limit denials before
the permit is granted and `w k` is the outcome of `ws.WriteMessage`; a
write error returns from the goroutine immediately. -/
def drainAux (d : Nat → Nat) (w : Nat → Bool) : Nat → List Event → List Act
  | _, [] => []
  | k, e :: rest =>
    awaitPermit (d k) ++
      (if w k then Act.send e :: drainAux d w (k + 1) rest
       else [Act.sendFail e])

/-- Whether every write of the drain loop succeeds, so that the loop
falls through to the code after it. -/
def drainDone (w : Nat → Bool) : Nat → List Event → Bool
  | _, [] => true
  | k, _ :: rest => w k && drainDone w (k + 1) rest

/-- The pass-through loop at the bottom of `Controller.startWorker`: read
a frame from the ingress connection and write its raw bytes to the
provider connection; a read or write error returns immediately. -/
def passThrough (pw : Nat → Bool) : Nat → List ReadResult → List Act
  | _, [] => []
  | _, ReadResult.readErr :: _ => [Act.readFail]
  | k, ReadResult.frame f :: rest =>
    if pw k then Act.forward f :: passThrough pw (k + 1) rest
    else [Act.forwardFail]

/-- The worker goroutine `Controller.startWorker(ws, label, triggerBackup)`: drain the buffer;
if the drain loop completes, optionally fire the failover channel
(`c.startBackup <- struct{}{}` when `triggerBackup`), then pass through
ingress frames.  `buf` is the buffer contents the drain observes, `post`
the ingress stream seen by the pass-through loop. -/
def startWorker (buf : List Event) (d : Nat → Nat) (w : Nat → Bool)
    (triggerBackup : Bool) (post : List ReadResult) (pw : Nat → Bool) : List Act :=
  drainAux d w 0 buf ++
    (if drainDone w 0 buf then
      Act.finishDrain ::
        ((if triggerBackup then [Act.fireSignal] else []) ++ passThrough pw 0 post)
    else [])

/-- The events a trace sends from the buffer, in order. -/
def sendsOf : List Act → List Event
  | [] => []
  | Act.send e :: rest => e :: sendsOf rest
  | _ :: rest => sendsOf rest

/-- The frames a trace forwards in pass-through, in order. -/
def forwardsOf : List Act → List Frame
  | [] => []
  | Act.forward f :: rest => f :: forwardsOf rest
  | _ :: rest => forwardsOf rest

/-- Whether an action is the failover firing. -/
def isFire : Act → Bool
  | Act.fireSignal => true
  | _ => false

/-- Scanner checking that a send (or failed send attempt) only ever
happens immediately after a granted permit; `prev` is the preceding
action. -/
def permitChecked : Option Act → List Act → Bool
  | _, [] => true
  | prev, a :: rest =>
    (match a, prev with
     | Act.send _, some Act.allowGranted => true
     | Act.send _, _ => false
     | Act.sendFail _, some Act.allowGranted => true
     | Act.sendFail _, _ => false
     | _, _ => true) && permitChecked (some a) rest

/-- Scanner checking that every rate-limit denial is immediately followed
by the fixed one-minute backoff sleep and then a recheck of the limiter. -/
def denialHandled : List Act → Bool
  | [] => true
  | Act.allowDenied :: rest =>
    (match rest with
     | Act.sleepBackoff n :: rest2 =>
       decide (n = backoffSeconds) &&
         (match rest2 with
          | Act.allowDenied :: _ => true
          | Act.allowGranted :: _ => true
          | _ => false)
     | _ => false) && denialHandled rest
  | _ :: rest => denialHandled rest

example : decodeFrame (Frame.json Json.null) = Except.ok ⟨"", ""⟩ := rfl
example : decodeFrame (Frame.json (Json.jobj [("id", Json.jstr "a")])) = Except.ok ⟨"a", ""⟩ :=
  rfl
example : decodeOk (Frame.malformed "oops") = false := by decide
example : (allowSeq (NewRateLimiter 2) 5).1 = [true, true, false, false, false] := by decide
example : (allowSeq ((allowSeq (NewRateLimiter 2) 5).2.refill) 2).1 = [true, true] := by decide

/-- The two worker identities of the default wiring in `main`: the
worker on `ws://provider/main` (started with `triggerBackup = true`) and
the worker on `ws://provider/backup` (started with `triggerBackup =
false` after the failover signal). -/
inductive Who where
  | mainW : Who
  | backupW : Who
deriving DecidableEq, Repr

/-- The scheduling environment of one run of the default wiring: the
buffer contents both workers observe, and each worker's denial counts,
drain write outcomes, post-drain ingress stream, and pass-through write
outcomes. -/
structure Cfg where
  buf : List Event
  dM : Nat → Nat
  dB : Nat → Nat
  wM : Nat → Bool
  wB : Nat → Bool
  postM : List ReadResult
  postB : List ReadResult
  pwM : Nat → Bool
  pwB : Nat → Bool

/-- The action list of the main worker under a configuration. -/
def Cfg.mainActs (c : Cfg) : List Act :=
  startWorker c.buf c.dM c.wM true c.postM c.pwM

/-- The action list of the backup worker under a configuration. -/
def Cfg.backupActs (c : Cfg) : List Act :=
  startWorker c.buf c.dB c.wB false c.postB c.pwB

/-- Global state of a run of `main`: the pending actions of each worker,
whether the failover channel has been fired, whether the backup setup
goroutine has passed its blocking receive, and the interleaved trace of
actions performed so far, each tagged with the worker that performed it. -/
structure Sys where
  mainRest : List Act
  backupRest : List Act
  fired : Bool
  backupStarted : Bool
  trace : List (Who × Act)

/-- Initial state of the default wiring: both goroutines exist, the
backup one is blocked on `<-controller.startBackup`, nothing has run. -/
def Cfg.init (c : Cfg) : Sys :=
  { mainRest := c.mainActs
  , backupRest := c.backupActs
  , fired := false
  , backupStarted := false
  , trace := [] }

/-- Interleaved small-step semantics of the wiring: the main worker may
perform its next action (firing the channel sets `fired`; the dedicated
setup goroutine is always ready to receive, so the send completes); the
backup setup goroutine may pass its receive once `fired` holds, dialing
the backup provider; the backup worker may act once started. -/
inductive Step : Sys → Sys → Prop
  | mainAct (s : Sys) (a : Act) (rest : List Act) :
      s.mainRest = a :: rest →
      Step s { s with
        mainRest := rest
        fired := s.fired || isFire a
        trace := s.trace ++ [(Who.mainW, a)] }
  | backupStart (s : Sys) :
      s.fired = true →
      s.backupStarted = false →
      Step s { s with
        backupStarted := true
        trace := s.trace ++ [(Who.backupW, Act.dialBackup)] }
  | backupAct (s : Sys) (a : Act) (rest : List Act) :
      s.backupStarted = true →
      s.backupRest = a :: rest →
      Step s { s with
        backupRest := rest
        trace := s.trace ++ [(Who.backupW, a)] }

/-- Reachability under any interleaving. -/
def Reach (s0 s : Sys) : Prop := Relation.ReflTransGen Step s0 s

/-- Projection of a tagged trace onto one worker's actions. -/
def projW (who : Who) : List (Who × Act) → List Act
  | [] => []
  | x :: rest => if x.1 = who then x.2 :: projW who rest else projW who rest

/-- State after the main worker has run to completion. -/
def consumeMain (s : Sys) : Sys :=
  { s with
    mainRest := []
    fired := s.fired || s.mainRest.any isFire
    trace := s.trace ++ s.mainRest.map (fun a => (Who.mainW, a)) }

/-- State after the backup setup goroutine passes its receive. -/
def afterStart (s : Sys) : Sys :=
  { s with
    backupStarted := true
    trace := s.trace ++ [(Who.backupW, Act.dialBackup)] }

/-- State after the backup worker has run to completion. -/
def consumeBackup (s : Sys) : Sys :=
  { s with
    backupRest := []
    trace := s.trace ++ s.backupRest.map (fun a => (Who.backupW, a)) }

/-- The canonical complete run of the default wiring: the main worker
runs to completion, the failover rendezvous completes, the backup worker
runs to completion. -/
def fullRun (c : Cfg) : Sys := consumeBackup (afterStart (consumeMain c.init))

theorem sendsOf_append (xs ys : List Act) :
    sendsOf (xs ++ ys) = sendsOf xs ++ sendsOf ys := by
  induction xs with
  | nil => rfl
  | cons a rest ih => cases a <;> simp [sendsOf, ih]

theorem sendsOf_awaitPermit (n : Nat) : sendsOf (awaitPermit n) = [] := by
  induction n with
  | zero => rfl
  | succ m ih => simp [awaitPermit, sendsOf, ih]

theorem sendsOf_passThrough (pw : Nat → Bool) :
    ∀ (k : Nat) (rrs : List ReadResult), sendsOf (passThrough pw k rrs) = [] := by
  intro k rrs
  induction rrs generalizing k with
  | nil => rfl
  | cons r rest ih =>
    cases r with
    | readErr => rfl
    | frame f =>
      by_cases h : pw k = true
      · simp [passThrough, h, sendsOf, ih]
      · simp [passThrough, h, sendsOf]

theorem sendsOf_drainAux_ok (d : Nat → Nat) (w : Nat → Bool) (hw : ∀ i, w i = true) :
    ∀ (buf : List Event) (k : Nat), sendsOf (drainAux d w k buf) = buf := by
  intro buf
  induction buf with
  | nil => intro k; rfl
  | cons e rest ih =>
    intro k
    simp [drainAux, hw k, sendsOf_append, sendsOf_awaitPermit, sendsOf, ih]

theorem drainDone_ok (w : Nat → Bool) (hw : ∀ i, w i = true) :
    ∀ (buf : List Event) (k : Nat), drainDone w k buf = true := by
  intro buf
  induction buf with
  | nil => intro k; rfl
  | cons e rest ih => intro k; simp [drainDone, hw k, ih]

theorem sendsOf_startWorker (buf : List Event) (d : Nat → Nat) (w : Nat → Bool)
    (trig : Bool) (post : List ReadResult) (pw : Nat → Bool) :
    sendsOf (startWorker buf d w trig post pw) = sendsOf (drainAux d w 0 buf) := by
  unfold startWorker
  by_cases h : drainDone w 0 buf = true
  · cases trig <;>
      simp [h, sendsOf_append, sendsOf, sendsOf_passThrough]
  · simp [h]

theorem readEventsFromApp_frames (fs : List Frame) :
    ∀ (evs : List Event),
      readEventsFromApp evs (fs.map ReadResult.frame) = evs ++ validEvents fs := by
  induction fs with
  | nil => intro evs; simp [readEventsFromApp, validEvents]
  | cons f rest ih =>
    intro evs
    cases h : decodeFrame f with
    | ok e => simp [readEventsFromApp, processFrame, h, validEvents, ih]
    | error msg => simp [readEventsFromApp, processFrame, h, validEvents, ih]

theorem validEvents_length (fs : List Frame) :
    (validEvents fs).length = fs.countP decodeOk := by
  induction fs with
  | nil => rfl
  | cons f rest ih =>
    cases h : decodeFrame f with
    | ok e => simp [validEvents, h, decodeOk, List.countP_cons, ih]
    | error msg => simp [validEvents, h, decodeOk, List.countP_cons, ih]

/-- Claim C2: for every sequence of valid Events appended to the buffer
before a worker completes its drain check, that worker (absent a write
error) sends each such Event to its provider exactly once, in strict
index order, which is the original arrival order: the worker's sent-event
sequence equals the buffer, which equals the valid frames in arrival
order. -/
theorem drain_sends_each_event_once_in_order (frames : List Frame) (d : Nat → Nat)
    (w : Nat → Bool) (trig : Bool) (post : List ReadResult) (pw : Nat → Bool)
    (hw : ∀ i, w i = true) :
    sendsOf (startWorker (readEventsFromApp [] (frames.map ReadResult.frame))
        d w trig post pw)
      = validEvents frames
  ∧ readEventsFromApp [] (frames.map ReadResult.frame) = validEvents frames := by
  have hbuf : readEventsFromApp [] (frames.map ReadResult.frame) = validEvents frames := by
    simpa using readEventsFromApp_frames frames []
  refine ⟨?_, hbuf⟩
  rw [hbuf, sendsOf_startWorker, sendsOf_drainAux_ok d w hw]

/-- Witness for C2 at a concrete two-frame ingress stream with an
always-succeeding provider connection. -/
theorem drain_sends_each_event_once_in_order_inst :
    sendsOf (startWorker (readEventsFromApp []
        (List.map ReadResult.frame
          [Frame.json (Json.jobj [("id", Json.jstr "1"), ("payload", Json.jstr "a")]),
           Frame.json (Json.jobj [("id", Json.jstr "2")])]))
        (fun _ => 0) (fun _ => true) true [] (fun _ => true))
      = validEvents
          [Frame.json (Json.jobj [("id", Json.jstr "1"), ("payload", Json.jstr "a")]),
           Frame.json (Json.jobj [("id", Json.jstr "2")])]
  ∧ readEventsFromApp []
      (List.map ReadResult.frame
        [Frame.json (Json.jobj [("id", Json.jstr "1"), ("payload", Json.jstr "a")]),
         Frame.json (Json.jobj [("id", Json.jstr "2")])])
      = validEvents
          [Frame.json (Json.jobj [("id", Json.jstr "1"), ("payload", Json.jstr "a")]),
           Frame.json (Json.jobj [("id", Json.jstr "2")])] :=
  drain_sends_each_event_once_in_order
    [Frame.json (Json.jobj [("id", Json.jstr "1"), ("payload", Json.jstr "a")]),
     Frame.json (Json.jobj [("id", Json.jstr "2")])]
    (fun _ => 0) (fun _ => true) true [] (fun _ => true) (fun _ => rfl)

/-- Claim C6: a frame that fails to decode is dropped and the read loop
continues: the buffer grows by exactly the number of successfully decoded
frames, the loop consumes every frame (a decode failure never ends it),
and a malformed frame between two valid frames neither stops the loop
nor appears in the buffer. -/
theorem malformed_frames_dropped_loop_continues :
    (∀ (evs : List Event) (fs : List Frame),
        (readEventsFromApp evs (fs.map ReadResult.frame)).length
          = evs.length + fs.countP decodeOk)
  ∧ (∀ fs : List Frame, framesConsumed (fs.map ReadResult.frame) = fs.length)
  ∧ (∀ (evs : List Event) (f1 m f2 : Frame) (e1 e2 : Event),
      decodeFrame f1 = Except.ok e1 → decodeOk m = false →
      decodeFrame f2 = Except.ok e2 →
      readEventsFromApp evs
          [ReadResult.frame f1, ReadResult.frame m, ReadResult.frame f2]
        = evs ++ [e1, e2]) := by
  refine ⟨?_, ?_, ?_⟩
  · intro evs fs
    rw [readEventsFromApp_frames fs evs]
    simp [validEvents_length]
  · intro fs
    induction fs with
    | nil => rfl
    | cons f rest ih => simp [framesConsumed, ih]
  · intro evs f1 m f2 e1 e2 h1 hm h2
    have hm2 : ∃ msg, decodeFrame m = Except.error msg := by
      cases hmm : decodeFrame m with
      | ok e => rw [decodeOk, hmm] at hm; simp at hm
      | error msg => exact ⟨msg, rfl⟩
    obtain ⟨msg, hmsg⟩ := hm2
    simp [readEventsFromApp, processFrame, h1, hmsg, h2]

/-- Witness for C6 at a concrete malformed frame between two valid
frames. -/
theorem malformed_frames_dropped_loop_continues_inst :
    readEventsFromApp []
        [ReadResult.frame (Frame.json (Json.jobj [("id", Json.jstr "1")])),
         ReadResult.frame (Frame.malformed "oops"),
         ReadResult.frame (Frame.json (Json.jobj [("id", Json.jstr "2")]))]
      = [] ++ [⟨"1", ""⟩, ⟨"2", ""⟩] :=
  malformed_frames_dropped_loop_continues.2.2 []
    (Frame.json (Json.jobj [("id", Json.jstr "1")])) (Frame.malformed "oops")
    (Frame.json (Json.jobj [("id", Json.jstr "2")])) ⟨"1", ""⟩ ⟨"2", ""⟩ rfl rfl rfl

/-- Claim C10 (implicit): the drop rule applies only to frames the JSON
unmarshaller rejects; any frame that unmarshals without error — `null`,
the empty object, objects missing `id` or `payload`, objects with extra
fields — is appended, with absent fields defaulted to the empty string. -/
theorem decode_tolerant_defaults :
    (∀ (evs : List Event) (f : Frame),
        processFrame evs f
          = evs ++ (match decodeFrame f with
                    | Except.ok e => [e]
                    | Except.error _ => []))
  ∧ decodeFrame (Frame.json Json.null) = Except.ok ⟨"", ""⟩
  ∧ decodeFrame (Frame.json (Json.jobj [])) = Except.ok ⟨"", ""⟩
  ∧ decodeFrame (Frame.json (Json.jobj [("payload", Json.jstr "p")]))
      = Except.ok ⟨"", "p"⟩
  ∧ decodeFrame (Frame.json (Json.jobj [("id", Json.jstr "a")]))
      = Except.ok ⟨"a", ""⟩
  ∧ decodeFrame (Frame.json (Json.jobj
        [("id", Json.jstr "a"), ("extra", Json.jnum 7), ("payload", Json.jstr "p")]))
      = Except.ok ⟨"a", "p"⟩
  ∧ (∀ evs : List Event,
      readEventsFromApp evs [ReadResult.frame (Frame.json Json.null)]
        = evs ++ [⟨"", ""⟩]) := by
  refine ⟨?_, rfl, rfl, rfl, rfl, rfl, ?_⟩
  · intro evs f
    cases h : decodeFrame f with
    | ok e => simp [processFrame, h]
    | error msg => simp [processFrame, h]
  · intro evs
    simp [readEventsFromApp, processFrame, decodeFrame, unmarshalEvent]

/-- Actions that can occur inside the drain loop. -/
def drainish : Act → Bool
  | Act.allowGranted => true
  | Act.allowDenied => true
  | Act.sleepBackoff _ => true
  | Act.send _ => true
  | Act.sendFail _ => true
  | _ => false

theorem drainish_awaitPermit (n : Nat) :
    ∀ a ∈ awaitPermit n, drainish a = true := by
  induction n with
  | zero => intro a ha; simp [awaitPermit] at ha; simp [ha, drainish]
  | succ m ih =>
    intro a ha
    simp [awaitPermit] at ha
    rcases ha with h | h | h
    · simp [h, drainish]
    · simp [h, drainish]
    · exact ih a h

theorem drainish_drainAux (d : Nat → Nat) (w : Nat → Bool) :
    ∀ (buf : List Event) (k : Nat), ∀ a ∈ drainAux d w k buf, drainish a = true := by
  intro buf
  induction buf with
  | nil => intro k a ha; simp [drainAux] at ha
  | cons e rest ih =>
    intro k a ha
    by_cases hw : w k = true
    · simp [drainAux, hw] at ha
      rcases ha with h | h | h
      · exact drainish_awaitPermit (d k) a h
      · simp [h, drainish]
      · exact ih (k + 1) a h
    · simp [drainAux, hw] at ha
      rcases ha with h | h
      · exact drainish_awaitPermit (d k) a h
      · simp [h, drainish]

theorem drainDone_false_at (w : Nat → Bool) :
    ∀ (buf : List Event) (k i : Nat), i < buf.length → w (k + i) = false →
      drainDone w k buf = false := by
  intro buf
  induction buf with
  | nil => intro k i hi; simp at hi
  | cons e rest ih =>
    intro k i hi hw
    cases i with
    | zero =>
      simp at hw
      simp [drainDone, hw]
    | succ j =>
      have hj : j < rest.length := by simpa using hi
      have harith : k + 1 + j = k + (j + 1) := by omega
      have hrec : drainDone w (k + 1) rest = false := by
        apply ih (k + 1) j hj
        rw [harith]; exact hw
      simp [drainDone, hrec]

theorem sendsOf_drainAux_take (d : Nat → Nat) (w : Nat → Bool) :
    ∀ (buf : List Event) (k i : Nat), i < buf.length → w (k + i) = false →
      (∀ j, j < i → w (k + j) = true) →
      sendsOf (drainAux d w k buf) = buf.take i := by
  intro buf
  induction buf with
  | nil => intro k i hi; simp at hi
  | cons e rest ih =>
    intro k i hi hw hprev
    cases i with
    | zero =>
      simp at hw
      simp [drainAux, hw, sendsOf_append, sendsOf_awaitPermit, sendsOf]
    | succ j =>
      have hw0 : w k = true := by
        have := hprev 0 (Nat.succ_pos j)
        simpa using this
      have hj : j < rest.length := by simpa using hi
      have harith : k + 1 + j = k + (j + 1) := by omega
      have hrec : sendsOf (drainAux d w (k + 1) rest) = rest.take j := by
        apply ih (k + 1) j hj
        · rw [harith]; exact hw
        · intro j2 hj2
          have harith2 : k + 1 + j2 = k + (j2 + 1) := by omega
          rw [harith2]
          exact hprev (j2 + 1) (by omega)
      simp [drainAux, hw0, sendsOf_append, sendsOf_awaitPermit, sendsOf, hrec]

/-- Claim C7: if a send during draining fails with a write error, the
worker terminates immediately: the whole worker trace is just the drain
prefix, the events sent are exactly those before the failing index, and
the trace contains no failover firing, no drain completion, and no
pass-through forwarding. -/
theorem write_error_terminates_worker (buf : List Event) (d : Nat → Nat) (w : Nat → Bool)
    (trig : Bool) (post : List ReadResult) (pw : Nat → Bool) (i : Nat)
    (hi : i < buf.length) (hwi : w i = false) (hprev : ∀ j, j < i → w j = true) :
    startWorker buf d w trig post pw = drainAux d w 0 buf
  ∧ sendsOf (drainAux d w 0 buf) = buf.take i
  ∧ Act.fireSignal ∉ drainAux d w 0 buf
  ∧ Act.finishDrain ∉ drainAux d w 0 buf
  ∧ (∀ f, Act.forward f ∉ drainAux d w 0 buf) := by
  have hdone : drainDone w 0 buf = false :=
    drainDone_false_at w buf 0 i hi (by simpa using hwi)
  refine ⟨?_, ?_, ?_, ?_, ?_⟩
  · simp [startWorker, hdone]
  · exact sendsOf_drainAux_take d w buf 0 i hi (by simpa using hwi)
      (by intro j hj; simpa using hprev j hj)
  · intro hmem
    have := drainish_drainAux d w buf 0 Act.fireSignal hmem
    simp [drainish] at this
  · intro hmem
    have := drainish_drainAux d w buf 0 Act.finishDrain hmem
    simp [drainish] at this
  · intro f hmem
    have := drainish_drainAux d w buf 0 (Act.forward f) hmem
    simp [drainish] at this

/-- Witness for C7: a two-event buffer whose second write fails. -/
theorem write_error_terminates_worker_inst :
    startWorker [⟨"1", ""⟩, ⟨"2", ""⟩] (fun _ => 0) (fun j => decide (j = 0))
        true [] (fun _ => true)
      = drainAux (fun _ => 0) (fun j => decide (j = 0)) 0 [⟨"1", ""⟩, ⟨"2", ""⟩]
  ∧ sendsOf (drainAux (fun _ => 0) (fun j => decide (j = 0)) 0 [⟨"1", ""⟩, ⟨"2", ""⟩])
      = List.take 1 [⟨"1", ""⟩, ⟨"2", ""⟩]
  ∧ Act.fireSignal ∉ drainAux (fun _ => 0) (fun j => decide (j = 0)) 0 [⟨"1", ""⟩, ⟨"2", ""⟩]
  ∧ Act.finishDrain ∉ drainAux (fun _ => 0) (fun j => decide (j = 0)) 0 [⟨"1", ""⟩, ⟨"2", ""⟩]
  ∧ (∀ f, Act.forward f ∉
      drainAux (fun _ => 0) (fun j => decide (j = 0)) 0 [⟨"1", ""⟩, ⟨"2", ""⟩]) :=
  write_error_terminates_worker [⟨"1", ""⟩, ⟨"2", ""⟩] (fun _ => 0)
    (fun j => decide (j = 0)) true [] (fun _ => true) 1 (by decide) (by decide)
    (by intro j hj; interval_cases j; decide)

theorem permitChecked_await (n : Nat) :
    ∀ (p : Option Act) (tail : List Act),
      permitChecked p (awaitPermit n ++ tail)
        = permitChecked (some Act.allowGranted) tail := by
  induction n with
  | zero => intro p tail; rfl
  | succ m ih =>
    intro p tail
    simpa [awaitPermit, permitChecked] using
      ih (some (Act.sleepBackoff backoffSeconds)) tail

theorem permitChecked_drain (d : Nat → Nat) (w : Nat → Bool) :
    ∀ (buf : List Event) (k : Nat) (p : Option Act),
      permitChecked p (drainAux d w k buf) = true := by
  intro buf
  induction buf with
  | nil => intro k p; rfl
  | cons e rest ih =>
    intro k p
    by_cases hw : w k = true
    · rw [drainAux]
      simp only [hw, if_true]
      rw [permitChecked_await]
      simpa [permitChecked] using ih (k + 1) (some (Act.send e))
    · rw [drainAux]
      simp only [hw]
      rw [if_neg (by simp [hw]), permitChecked_await]
      rfl

theorem denialHandled_await (n : Nat) :
    ∀ tail : List Act, denialHandled tail = true →
      denialHandled (awaitPermit n ++ tail) = true := by
  induction n with
  | zero =>
    intro tail h
    simpa [awaitPermit, denialHandled] using h
  | succ m ih =>
    intro tail h
    have hx := ih tail h
    cases m with
    | zero =>
      simpa [awaitPermit, denialHandled, backoffSeconds] using hx
    | succ m2 =>
      simpa [awaitPermit, denialHandled, backoffSeconds] using hx

theorem denialHandled_drain (d : Nat → Nat) (w : Nat → Bool) :
    ∀ (buf : List Event) (k : Nat), denialHandled (drainAux d w k buf) = true := by
  intro buf
  induction buf with
  | nil => intro k; rfl
  | cons e rest ih =>
    intro k
    by_cases hw : w k = true
    · rw [drainAux]
      simp only [hw, if_true]
      apply denialHandled_await
      simpa [denialHandled] using ih (k + 1)
    · rw [drainAux]
      rw [if_neg (by simp [hw])]
      apply denialHandled_await
      rfl

/-- Claim C8: during draining a worker never sends without first
obtaining a permit — in every drain trace each (attempted) send is
immediately preceded by a granted `Allow()` call, and every denial is
immediately followed by the fixed one-minute backoff sleep and a recheck
of the limiter. -/
theorem drain_checks_limiter_before_send (buf : List Event) (d : Nat → Nat)
    (w : Nat → Bool) :
    permitChecked none (drainAux d w 0 buf) = true
  ∧ denialHandled (drainAux d w 0 buf) = true :=
  ⟨permitChecked_drain d w buf 0 none, denialHandled_drain d w buf 0⟩

theorem passThrough_all_frames (pw : Nat → Bool) (hpw : ∀ i, pw i = true) :
    ∀ (fs : List Frame) (k : Nat),
      passThrough pw k (fs.map ReadResult.frame) = fs.map Act.forward := by
  intro fs
  induction fs with
  | nil => intro k; rfl
  | cons f rest ih => intro k; simp [passThrough, hpw k, ih]

theorem passThrough_shape (pw : Nat → Bool) :
    ∀ (rrs : List ReadResult) (k : Nat) (a : Act), a ∈ passThrough pw k rrs →
      (∃ f, a = Act.forward f) ∨ a = Act.forwardFail ∨ a = Act.readFail := by
  intro rrs
  induction rrs with
  | nil => intro k a ha; simp [passThrough] at ha
  | cons r rest ih =>
    intro k a ha
    cases r with
    | readErr =>
      simp [passThrough] at ha
      exact Or.inr (Or.inr ha)
    | frame f =>
      by_cases h : pw k = true
      · simp [passThrough, h] at ha
        rcases ha with h1 | h1
        · exact Or.inl ⟨f, h1⟩
        · exact ih (k + 1) a h1
      · simp [passThrough, h] at ha
        exact Or.inr (Or.inl ha)

/-- Claim C5: in PassThrough every frame observed on the ingress
connection is forwarded to the worker's provider connection as the raw
bytes received, unmodified and not re-decoded (malformed frames are
forwarded too), and the pass-through trace contains only forwarding
actions — no buffering and no rate limiting. -/
theorem pass_through_forwards_verbatim (pw : Nat → Bool) (rrs : List ReadResult)
    (fs : List Frame) (hpw : ∀ i, pw i = true) :
    passThrough pw 0 (fs.map ReadResult.frame) = fs.map Act.forward
  ∧ (∀ a ∈ passThrough pw 0 rrs,
      (∃ f, a = Act.forward f) ∨ a = Act.forwardFail ∨ a = Act.readFail)
  ∧ (∀ a ∈ passThrough pw 0 rrs,
      a ≠ Act.allowGranted ∧ a ≠ Act.allowDenied ∧
      (∀ n, a ≠ Act.sleepBackoff n) ∧ (∀ e, a ≠ Act.send e)) := by
  refine ⟨passThrough_all_frames pw hpw fs 0, passThrough_shape pw rrs 0, ?_⟩
  intro a ha
  rcases passThrough_shape pw rrs 0 a ha with ⟨f, h⟩ | h | h <;>
    subst h <;> refine ⟨by simp, by simp, by intro n; simp, by intro e; simp⟩

/-- Witness for C5 at a concrete post-drain stream containing a malformed
frame, which is forwarded verbatim rather than dropped. -/
theorem pass_through_forwards_verbatim_inst :
    passThrough (fun _ => true) 0
        (List.map ReadResult.frame [Frame.malformed "oops", Frame.json Json.null])
      = List.map Act.forward [Frame.malformed "oops", Frame.json Json.null]
  ∧ (∀ a ∈ passThrough (fun _ => true) 0
        [ReadResult.frame (Frame.malformed "oops"), ReadResult.readErr],
      (∃ f, a = Act.forward f) ∨ a = Act.forwardFail ∨ a = Act.readFail)
  ∧ (∀ a ∈ passThrough (fun _ => true) 0
        [ReadResult.frame (Frame.malformed "oops"), ReadResult.readErr],
      a ≠ Act.allowGranted ∧ a ≠ Act.allowDenied ∧
      (∀ n, a ≠ Act.sleepBackoff n) ∧ (∀ e, a ≠ Act.send e)) :=
  pass_through_forwards_verbatim (fun _ => true)
    [ReadResult.frame (Frame.malformed "oops"), ReadResult.readErr]
    [Frame.malformed "oops", Frame.json Json.null] (fun _ => rfl)

theorem grants_le_tokens : ∀ (n : Nat) (rl : RateLimiter),
    ((grants (allowSeq rl n).1 : Int)) ≤ max rl.tokens 0 := by
  intro n
  induction n with
  | zero =>
    intro rl
    simp [allowSeq, grants]
  | succ m ih =>
    intro rl
    by_cases h : 0 < rl.tokens
    · have hrec := ih { tokens := rl.tokens - 1, maxAllowed := rl.maxAllowed }
      simp only [allowSeq, RateLimiter.Allow, h, if_true]
      simp [grants, List.count_cons] at hrec ⊢
      omega
    · have hrec := ih rl
      simp only [allowSeq, RateLimiter.Allow, h, if_false]
      simp [grants, List.count_cons] at hrec ⊢
      omega

/-- Claim C3 counterexample: the claim quantifies over every `max`, but
`NewRateLimiter` accepts any Go `int`; with `max = -1` the limiter grants
zero permits between two ticks, and zero exceeds `max`, so "at most `max`
permits between two consecutive refill ticks" fails. -/
theorem rate_limiter_negative_max_counterexample :
    (NewRateLimiter (-1)).refill.maxAllowed
      < ((grants (allowSeq ((NewRateLimiter (-1)).refill) 5).1 : Int)) := by
  decide

/-- Claim C3 (amended: for every `max ≥ 0`): between two consecutive
refill ticks the limiter grants at most `max` permits; `Allow()` grants
and decrements iff `tokens > 0` and otherwise denies leaving the state
unchanged; a tick resets `tokens` to exactly `maxAllowed` regardless of
prior consumption; and with `max = 2` five consecutive calls yield
exactly two grants then three denials, with two more grants after the
next tick. -/
theorem rate_limiter_token_bucket (rl : RateLimiter) (h : 0 ≤ rl.maxAllowed) :
    (∀ n : Nat, ((grants (allowSeq rl.refill n).1 : Int)) ≤ rl.maxAllowed)
  ∧ (∀ rl2 : RateLimiter, rl2.Allow.1 = true ↔ 0 < rl2.tokens)
  ∧ (∀ rl2 : RateLimiter, 0 < rl2.tokens → rl2.Allow.2.tokens = rl2.tokens - 1)
  ∧ (∀ rl2 : RateLimiter, ¬ 0 < rl2.tokens → rl2.Allow = (false, rl2))
  ∧ (∀ rl2 : RateLimiter, rl2.refill.tokens = rl2.maxAllowed)
  ∧ (allowSeq (NewRateLimiter 2) 5).1 = [true, true, false, false, false]
  ∧ (allowSeq ((allowSeq (NewRateLimiter 2) 5).2.refill) 2).1 = [true, true] := by
  refine ⟨?_, ?_, ?_, ?_, ?_, by decide, by decide⟩
  · intro n
    have hb := grants_le_tokens n rl.refill
    have ht : rl.refill.tokens = rl.maxAllowed := rfl
    rw [ht] at hb
    omega
  · intro rl2
    by_cases h2 : 0 < rl2.tokens <;> simp [RateLimiter.Allow, h2]
  · intro rl2 h2
    simp [RateLimiter.Allow, h2]
  · intro rl2 h2
    simp [RateLimiter.Allow, h2]
  · intro rl2
    rfl

/-- Witness for C3 at `max = 2`. -/
theorem rate_limiter_token_bucket_inst :
    ((grants (allowSeq ((NewRateLimiter 2).refill) 5).1 : Int))
      ≤ (NewRateLimiter 2).maxAllowed :=
  (rate_limiter_token_bucket (NewRateLimiter 2) (by decide)).1 5

/-- The data-model invariant of the limiter: `0 ≤ tokens ≤ max`. -/
def rlInv (rl : RateLimiter) : Prop :=
  0 ≤ rl.tokens ∧ rl.tokens ≤ rl.maxAllowed

/-- Claim C9: for every RateLimiter constructed with `max ≥ 0` the
invariant `0 ≤ tokens ≤ max` holds initially and is preserved by every
`Allow()` call and every refill tick, and a tick is a full reset of
`tokens` to `max`, never an additive refill. -/
theorem rate_limiter_invariant (max : Int) (rl : RateLimiter)
    (h0 : 0 ≤ max) (h : rlInv rl) :
    rlInv (NewRateLimiter max)
  ∧ rlInv rl.Allow.2
  ∧ rlInv rl.refill
  ∧ rl.refill.tokens = rl.maxAllowed := by
  obtain ⟨h1, h2⟩ := h
  refine ⟨⟨h0, le_refl max⟩, ?_, ⟨le_trans h1 h2, le_refl _⟩, rfl⟩
  by_cases hc : 0 < rl.tokens
  · simp [RateLimiter.Allow, hc, rlInv]
    omega
  · simp [RateLimiter.Allow, hc, rlInv]
    omega

/-- Witness for C9 at `max = 3` and the limiter state `(1, 2)`. -/
theorem rate_limiter_invariant_inst :
    rlInv (NewRateLimiter 3)
  ∧ rlInv (RateLimiter.mk 1 2).Allow.2
  ∧ rlInv (RateLimiter.mk 1 2).refill
  ∧ (RateLimiter.mk 1 2).refill.tokens = (RateLimiter.mk 1 2).maxAllowed :=
  rate_limiter_invariant 3 (RateLimiter.mk 1 2) (by decide)
    ⟨by decide, by decide⟩

/-- Number of failover firings in an action list. -/
def countFire (l : List Act) : Nat := l.countP isFire

theorem countFire_awaitPermit (n : Nat) : countFire (awaitPermit n) = 0 := by
  rw [countFire, List.countP_eq_zero]
  intro a ha
  have := drainish_awaitPermit n a ha
  cases a <;> simp_all [drainish, isFire]

theorem countFire_drainAux (d : Nat → Nat) (w : Nat → Bool) (buf : List Event) (k : Nat) :
    countFire (drainAux d w k buf) = 0 := by
  rw [countFire, List.countP_eq_zero]
  intro a ha
  have := drainish_drainAux d w buf k a ha
  cases a <;> simp_all [drainish, isFire]

theorem countFire_passThrough (pw : Nat → Bool) (rrs : List ReadResult) (k : Nat) :
    countFire (passThrough pw k rrs) = 0 := by
  rw [countFire, List.countP_eq_zero]
  intro a ha
  rcases passThrough_shape pw rrs k a ha with ⟨f, h⟩ | h | h <;> subst h <;> simp [isFire]

theorem startWorker_trigger_done (buf : List Event) (d : Nat → Nat) (w : Nat → Bool)
    (post : List ReadResult) (pw : Nat → Bool) (h : drainDone w 0 buf = true) :
    startWorker buf d w true post pw
      = (drainAux d w 0 buf ++ [Act.finishDrain])
          ++ Act.fireSignal :: passThrough pw 0 post := by
  simp [startWorker, h]

theorem startWorker_not_done (buf : List Event) (d : Nat → Nat) (w : Nat → Bool)
    (trig : Bool) (post : List ReadResult) (pw : Nat → Bool)
    (h : drainDone w 0 buf = false) :
    startWorker buf d w trig post pw = drainAux d w 0 buf := by
  simp [startWorker, h]

theorem countFire_backupActs (c : Cfg) : countFire c.backupActs = 0 := by
  rw [Cfg.backupActs]
  by_cases h : drainDone c.wB 0 c.buf = true
  · simp [startWorker, h, countFire, List.countP_append, List.countP_cons, isFire]
    constructor
    · have := countFire_drainAux c.dB c.wB c.buf 0
      simpa [countFire] using this
    · have := countFire_passThrough c.pwB c.postB 0
      simpa [countFire] using this
  · rw [startWorker_not_done _ _ _ _ _ _ (by simpa using h)]
    exact countFire_drainAux c.dB c.wB c.buf 0

theorem countFire_mainActs (c : Cfg) : countFire c.mainActs ≤ 1 := by
  rw [Cfg.mainActs]
  by_cases h : drainDone c.wM 0 c.buf = true
  · rw [startWorker_trigger_done _ _ _ _ _ h]
    have h1 := countFire_drainAux c.dM c.wM c.buf 0
    have h2 := countFire_passThrough c.pwM c.postM 0
    rw [countFire] at h1 h2 ⊢
    simp [List.countP_append, List.countP_cons, isFire, h1, h2]
  · rw [startWorker_not_done _ _ _ _ _ _ (by simpa using h)]
    simp [countFire_drainAux]

theorem fire_mem_mainActs_done (c : Cfg) (h : Act.fireSignal ∈ c.mainActs) :
    drainDone c.wM 0 c.buf = true := by
  by_contra hc
  rw [Cfg.mainActs, startWorker_not_done _ _ _ _ _ _ (by simpa using hc)] at h
  have h0 := countFire_drainAux c.dM c.wM c.buf 0
  rw [countFire, List.countP_eq_zero] at h0
  have := h0 Act.fireSignal h
  simp [isFire] at this

theorem projW_append (who : Who) (t1 t2 : List (Who × Act)) :
    projW who (t1 ++ t2) = projW who t1 ++ projW who t2 := by
  induction t1 with
  | nil => rfl
  | cons x rest ih =>
    by_cases h : x.1 = who
    · simp [projW, h, ih]
    · simp [projW, h, ih]

theorem projW_map_same (who : Who) (l : List Act) :
    projW who (l.map fun a => (who, a)) = l := by
  induction l with
  | nil => rfl
  | cons a rest ih => simp [projW, ih]

theorem projW_map_other (who who2 : Who) (hne : who2 ≠ who) (l : List Act) :
    projW who (l.map fun a => (who2, a)) = [] := by
  induction l with
  | nil => rfl
  | cons a rest ih => simp [projW, hne, ih]

theorem mem_projW (who : Who) (t : List (Who × Act)) (x : Who × Act)
    (hx : x ∈ t) (hwho : x.1 = who) : x.2 ∈ projW who t := by
  induction t with
  | nil => simp at hx
  | cons y rest ih =>
    rcases List.mem_cons.mp hx with h | h
    · subst h
      simp [projW, hwho]
    · by_cases hy : y.1 = who
      · simp [projW, hy]
        exact Or.inr (ih h)
      · simpa [projW, hy] using ih h

theorem projW_mem (who : Who) (t : List (Who × Act)) (a : Act)
    (ha : a ∈ projW who t) : (who, a) ∈ t := by
  induction t with
  | nil => simp [projW] at ha
  | cons y rest ih =>
    by_cases hy : y.1 = who
    · rw [projW, if_pos hy] at ha
      rcases List.mem_cons.mp ha with h | h
      · subst h
        have : y = (who, y.2) := by
          cases y
          simp_all
        rw [← this]
        exact List.mem_cons_self y rest
      · exact List.mem_cons_of_mem y (ih h)
    · rw [projW, if_neg hy] at ha
      exact List.mem_cons_of_mem y (ih ha)

theorem countFireT_split (t : List (Who × Act)) :
    t.countP (fun x => isFire x.2)
      = countFire (projW Who.mainW t) + countFire (projW Who.backupW t) := by
  induction t with
  | nil => rfl
  | cons x rest ih =>
    cases x with
    | mk who a =>
      cases who with
      | mainW =>
        simp [List.countP_cons, projW, countFire, List.countP_cons] at ih ⊢
        omega
      | backupW =>
        simp [List.countP_cons, projW, countFire, List.countP_cons] at ih ⊢
        omega

theorem first_occ {α : Type} (z : α) :
    ∀ (A C B D : List α), A ++ z :: B = C ++ z :: D → z ∉ A → z ∉ C →
      A = C ∧ B = D := by
  intro A
  induction A with
  | nil =>
    intro C B D h hzA hzC
    cases C with
    | nil => simpa using h
    | cons c crest =>
      simp at h
      obtain ⟨h1, _⟩ := h
      exact absurd (h1 ▸ List.mem_cons_self c crest) hzC
  | cons a arest ih =>
    intro C B D h hzA hzC
    cases C with
    | nil =>
      simp at h
      obtain ⟨h1, _⟩ := h
      exact absurd (h1 ▸ List.mem_cons_self a arest) hzA
    | cons c crest =>
      simp at h
      obtain ⟨h1, h2⟩ := h
      have hz1 : z ∉ arest := fun hm => hzA (List.mem_cons_of_mem a hm)
      have hz2 : z ∉ crest := fun hm => hzC (List.mem_cons_of_mem c hm)
      obtain ⟨he1, he2⟩ := ih crest B D h2 hz1 hz2
      exact ⟨by rw [h1, he1], he2⟩

theorem mem_split_after {α : Type} (good : α → Prop) :
    ∀ (p : List α) (q P Q : List α) (x f : α),
      p ++ x :: q = P ++ f :: Q → (∀ y ∈ P, good y) → good f → ¬ good x →
      ∃ p2, p = P ++ f :: p2 := by
  intro p
  induction p with
  | nil =>
    intro q P Q x f h hP hf hx
    cases P with
    | nil =>
      simp at h
      exact absurd (h.1 ▸ hf) hx
    | cons b Prest =>
      simp at h
      obtain ⟨h1, h2⟩ := h
      exact absurd (h1 ▸ hP b (List.mem_cons_self b Prest)) hx
  | cons a prest ih =>
    intro q P Q x f h hP hf hx
    cases P with
    | nil =>
      simp at h
      obtain ⟨h1, _⟩ := h
      exact ⟨prest, by rw [h1]; simp⟩
    | cons b Prest =>
      simp at h
      obtain ⟨h1, h2⟩ := h
      have hPrest : ∀ y ∈ Prest, good y := fun y hy => hP y (List.mem_cons_of_mem b hy)
      obtain ⟨p2, hp2⟩ := ih q Prest Q x f h2 hPrest hf hx
      exact ⟨p2, by rw [h1, hp2]; simp⟩

theorem isFire_iff (a : Act) : isFire a = true ↔ a = Act.fireSignal := by
  cases a <;> simp [isFire]

theorem projW_single (who who2 : Who) (a : Act) :
    projW who [(who2, a)] = if who2 = who then [a] else [] := by
  by_cases h : who2 = who <;> simp [projW, h]

/-- Inductive invariant of the wiring: each worker's trace projection is
the consumed prefix of its action list, the backup projection is empty
until the setup goroutine passes its receive, `fired` records exactly
whether the main worker has emitted the failover firing, and once fired
the trace splits as a main-only prefix, the unique firing, and a
fire-free remainder. -/
structure WireInv (c : Cfg) (s : Sys) : Prop where
  mainSplit : projW Who.mainW s.trace ++ s.mainRest = c.mainActs
  bNot : s.backupStarted = false →
    projW Who.backupW s.trace = [] ∧ s.backupRest = c.backupActs
  bYes : s.backupStarted = true →
    projW Who.backupW s.trace ++ s.backupRest = Act.dialBackup :: c.backupActs
  firedIff : s.fired = true ↔ Act.fireSignal ∈ projW Who.mainW s.trace
  startedFired : s.backupStarted = true → s.fired = true
  notFiredMain : s.fired = false → ∀ x ∈ s.trace, x.1 = Who.mainW
  firedShape : s.fired = true →
    ∃ p q, s.trace = p ++ (Who.mainW, Act.fireSignal) :: q ∧
      (∀ x ∈ p, x.1 = Who.mainW) ∧ Act.fireSignal ∉ projW Who.mainW p ∧
      (∀ x ∈ q, isFire x.2 = false)

theorem wireInv_init (c : Cfg) : WireInv c c.init := by
  refine ⟨?_, ?_, ?_, ?_, ?_, ?_, ?_⟩
  · simp [Cfg.init, projW]
  · intro _
    exact ⟨rfl, rfl⟩
  · intro h
    simp [Cfg.init] at h
  · constructor
    · intro h
      simp [Cfg.init] at h
    · intro h
      simp [Cfg.init, projW] at h
  · intro h
    simp [Cfg.init] at h
  · intro _ x hx
    simp [Cfg.init] at hx
  · intro h
    simp [Cfg.init] at h

theorem fired_mainRest_noFire (c : Cfg) (s : Sys) (inv : WireInv c s)
    (hf : s.fired = true) : ∀ b ∈ s.mainRest, isFire b = false := by
  intro b hb
  have hfire : Act.fireSignal ∈ projW Who.mainW s.trace := inv.firedIff.mp hf
  have hcnt : countFire (projW Who.mainW s.trace) + countFire s.mainRest
      = countFire c.mainActs := by
    rw [← inv.mainSplit, countFire, countFire, countFire, List.countP_append]
  have h1 : 1 ≤ countFire (projW Who.mainW s.trace) := by
    rw [countFire]
    apply Nat.succ_le_of_lt
    rw [List.countP_pos_iff]
    exact ⟨Act.fireSignal, hfire, by simp [isFire]⟩
  have h2 := countFire_mainActs c
  have h0 : countFire s.mainRest = 0 := by omega
  rw [countFire, List.countP_eq_zero] at h0
  simpa using h0 b hb

theorem backupRest_noFire (c : Cfg) (s : Sys) (inv : WireInv c s)
    (hst : s.backupStarted = true) : ∀ b ∈ s.backupRest, isFire b = false := by
  intro b hb
  have hsplit := inv.bYes hst
  have hmem : b ∈ Act.dialBackup :: c.backupActs := by
    rw [← hsplit]
    exact List.mem_append_right _ hb
  rcases List.mem_cons.mp hmem with h | h
  · subst h
    rfl
  · have h0 := countFire_backupActs c
    rw [countFire, List.countP_eq_zero] at h0
    simpa using h0 b h


theorem wireInv_step (c : Cfg) (s s2 : Sys) (inv : WireInv c s) (hstep : Step s s2) :
    WireInv c s2 := by
  cases hstep with
  | mainAct a rest hrest =>
    refine ⟨?_, ?_, ?_, ?_, ?_, ?_, ?_⟩
    · show projW Who.mainW (s.trace ++ [(Who.mainW, a)]) ++ rest = c.mainActs
      rw [projW_append, projW_single, if_pos rfl, List.append_assoc,
        List.singleton_append, ← hrest, inv.mainSplit]
    · intro h
      obtain ⟨hb1, hb2⟩ := inv.bNot h
      refine ⟨?_, hb2⟩
      show projW Who.backupW (s.trace ++ [(Who.mainW, a)]) = []
      rw [projW_append, projW_single, if_neg (by simp), hb1]
      rfl
    · intro h
      have hb := inv.bYes h
      show projW Who.backupW (s.trace ++ [(Who.mainW, a)]) ++ s.backupRest
        = Act.dialBackup :: c.backupActs
      rw [projW_append, projW_single, if_neg (by simp), List.append_nil]
      exact hb
    · show (s.fired || isFire a) = true
        ↔ Act.fireSignal ∈ projW Who.mainW (s.trace ++ [(Who.mainW, a)])
      rw [projW_append, projW_single, if_pos rfl, List.mem_append, List.mem_singleton,
        Bool.or_eq_true, inv.firedIff, isFire_iff]
      constructor
      · rintro (h | h)
        · exact Or.inl h
        · exact Or.inr h.symm
      · rintro (h | h)
        · exact Or.inl h
        · exact Or.inr h.symm
    · intro h
      show (s.fired || isFire a) = true
      rw [inv.startedFired h]
      rfl
    · intro h x hx
      have h2 : s.fired = false ∧ isFire a = false := by
        have := h
        simp only [Bool.or_eq_false_iff] at this
        exact this
      rcases List.mem_append.mp hx with hx1 | hx1
      · exact inv.notFiredMain h2.1 x hx1
      · rw [List.mem_singleton] at hx1
        rw [hx1]
    · intro h
      by_cases hf : s.fired = true
      · obtain ⟨p, q, htr, hpmain, hpnof, hqnof⟩ := inv.firedShape hf
        have hanf : isFire a = false :=
          fired_mainRest_noFire c s inv hf a (by rw [hrest]; exact List.mem_cons_self a rest)
        refine ⟨p, q ++ [(Who.mainW, a)], ?_, hpmain, hpnof, ?_⟩
        · show s.trace ++ [(Who.mainW, a)]
            = p ++ (Who.mainW, Act.fireSignal) :: (q ++ [(Who.mainW, a)])
          rw [htr]
          simp
        · intro x hx
          rcases List.mem_append.mp hx with hx1 | hx1
          · exact hqnof x hx1
          · rw [List.mem_singleton] at hx1
            rw [hx1]
            exact hanf
      · have hf2 : s.fired = false := by simpa using hf
        have ha : isFire a = true := by
          have h3 := h
          rw [Bool.or_eq_true] at h3
          rcases h3 with h1 | h1
          · exact absurd h1 hf
          · exact h1
        have haf : a = Act.fireSignal := (isFire_iff a).mp ha
        refine ⟨s.trace, [], ?_, inv.notFiredMain hf2, ?_, by simp⟩
        · rw [haf]
        · intro hc
          rw [← inv.firedIff] at hc
          exact absurd hc (by rw [hf2]; simp)
  | backupStart hfired hnot =>
    refine ⟨?_, ?_, ?_, ?_, ?_, ?_, ?_⟩
    · show projW Who.mainW (s.trace ++ [(Who.backupW, Act.dialBackup)]) ++ s.mainRest
        = c.mainActs
      rw [projW_append, projW_single, if_neg (by simp), List.append_nil, inv.mainSplit]
    · intro h
      simp at h
    · intro _
      obtain ⟨hb1, hb2⟩ := inv.bNot hnot
      show projW Who.backupW (s.trace ++ [(Who.backupW, Act.dialBackup)]) ++ s.backupRest
        = Act.dialBackup :: c.backupActs
      rw [projW_append, projW_single, if_pos rfl, hb1, hb2]
      rfl
    · show s.fired = true
        ↔ Act.fireSignal ∈ projW Who.mainW (s.trace ++ [(Who.backupW, Act.dialBackup)])
      rw [projW_append, projW_single, if_neg (by simp), List.append_nil]
      exact inv.firedIff
    · intro _
      exact hfired
    · intro h
      rw [hfired] at h
      simp at h
    · intro _
      obtain ⟨p, q, htr, hpmain, hpnof, hqnof⟩ := inv.firedShape hfired
      refine ⟨p, q ++ [(Who.backupW, Act.dialBackup)], ?_, hpmain, hpnof, ?_⟩
      · show s.trace ++ [(Who.backupW, Act.dialBackup)]
          = p ++ (Who.mainW, Act.fireSignal) :: (q ++ [(Who.backupW, Act.dialBackup)])
        rw [htr]
        simp
      · intro x hx
        rcases List.mem_append.mp hx with hx1 | hx1
        · exact hqnof x hx1
        · rw [List.mem_singleton] at hx1
          rw [hx1]
          rfl
  | backupAct a rest hst hbrest =>
    refine ⟨?_, ?_, ?_, ?_, ?_, ?_, ?_⟩
    · show projW Who.mainW (s.trace ++ [(Who.backupW, a)]) ++ s.mainRest = c.mainActs
      rw [projW_append, projW_single, if_neg (by simp), List.append_nil, inv.mainSplit]
    · intro h
      rw [hst] at h
      simp at h
    · intro _
      have hb := inv.bYes hst
      show projW Who.backupW (s.trace ++ [(Who.backupW, a)]) ++ rest
        = Act.dialBackup :: c.backupActs
      rw [projW_append, projW_single, if_pos rfl, List.append_assoc,
        List.singleton_append, ← hbrest, hb]
    · show s.fired = true
        ↔ Act.fireSignal ∈ projW Who.mainW (s.trace ++ [(Who.backupW, a)])
      rw [projW_append, projW_single, if_neg (by simp), List.append_nil]
      exact inv.firedIff
    · intro _
      exact inv.startedFired hst
    · intro h
      rw [inv.startedFired hst] at h
      simp at h
    · intro _
      obtain ⟨p, q, htr, hpmain, hpnof, hqnof⟩ := inv.firedShape (inv.startedFired hst)
      have hanf : isFire a = false :=
        backupRest_noFire c s inv hst a (by rw [hbrest]; exact List.mem_cons_self a rest)
      refine ⟨p, q ++ [(Who.backupW, a)], ?_, hpmain, hpnof, ?_⟩
      · show s.trace ++ [(Who.backupW, a)]
          = p ++ (Who.mainW, Act.fireSignal) :: (q ++ [(Who.backupW, a)])
        rw [htr]
        simp
      · intro x hx
        rcases List.mem_append.mp hx with hx1 | hx1
        · exact hqnof x hx1
        · rw [List.mem_singleton] at hx1
          rw [hx1]
          exact hanf

theorem wireInv_reach (c : Cfg) (s : Sys) (h : Reach c.init s) : WireInv c s := by
  induction h with
  | refl => exact wireInv_init c
  | tail _ hstep ih => exact wireInv_step c _ _ ih hstep

theorem consumeMain_eq_self (s : Sys) (h : s.mainRest = []) : consumeMain s = s := by
  cases s
  simp_all [consumeMain]

theorem consumeBackup_eq_self (s : Sys) (h : s.backupRest = []) : consumeBackup s = s := by
  cases s
  simp_all [consumeBackup]

theorem reach_consumeMain : ∀ (l : List Act) (s : Sys), s.mainRest = l →
    Reach s (consumeMain s) := by
  intro l
  induction l with
  | nil =>
    intro s h
    rw [consumeMain_eq_self s h]
    exact Relation.ReflTransGen.refl
  | cons a rest ih =>
    intro s h
    have hstep : Step s { s with
        mainRest := rest
        fired := s.fired || isFire a
        trace := s.trace ++ [(Who.mainW, a)] } := Step.mainAct s a rest h
    have hreach := ih { s with
        mainRest := rest
        fired := s.fired || isFire a
        trace := s.trace ++ [(Who.mainW, a)] } rfl
    have heq : consumeMain { s with
        mainRest := rest
        fired := s.fired || isFire a
        trace := s.trace ++ [(Who.mainW, a)] } = consumeMain s := by
      simp [consumeMain, h, Bool.or_assoc, List.append_assoc]
    rw [heq] at hreach
    exact Relation.ReflTransGen.head hstep hreach

theorem reach_consumeBackup : ∀ (l : List Act) (s : Sys), s.backupStarted = true →
    s.backupRest = l → Reach s (consumeBackup s) := by
  intro l
  induction l with
  | nil =>
    intro s _ h
    rw [consumeBackup_eq_self s h]
    exact Relation.ReflTransGen.refl
  | cons a rest ih =>
    intro s hst h
    have hstep : Step s { s with
        backupRest := rest
        trace := s.trace ++ [(Who.backupW, a)] } := Step.backupAct s a rest hst h
    have hreach := ih { s with
        backupRest := rest
        trace := s.trace ++ [(Who.backupW, a)] } hst rfl
    have heq : consumeBackup { s with
        backupRest := rest
        trace := s.trace ++ [(Who.backupW, a)] } = consumeBackup s := by
      simp [consumeBackup, h, List.append_assoc]
    rw [heq] at hreach
    exact Relation.ReflTransGen.head hstep hreach

theorem reach_fullRun (c : Cfg) (hfire : c.mainActs.any isFire = true) :
    Reach c.init (fullRun c) := by
  have h1 : Reach c.init (consumeMain c.init) := reach_consumeMain _ _ rfl
  have hf : (consumeMain c.init).fired = true := by
    simp [consumeMain, Cfg.init, hfire]
  have h2 : Step (consumeMain c.init) (afterStart (consumeMain c.init)) :=
    Step.backupStart (consumeMain c.init) hf rfl
  have h3 : Reach (afterStart (consumeMain c.init))
      (consumeBackup (afterStart (consumeMain c.init))) :=
    reach_consumeBackup _ _ rfl rfl
  exact Relation.ReflTransGen.trans h1 (Relation.ReflTransGen.head h2 h3)

theorem mainActs_any_fire (c : Cfg) (h : drainDone c.wM 0 c.buf = true) :
    c.mainActs.any isFire = true := by
  rw [Cfg.mainActs, startWorker_trigger_done _ _ _ _ _ h]
  simp [isFire]

theorem fullRun_trace (c : Cfg) :
    (fullRun c).trace
      = c.mainActs.map (fun a => (Who.mainW, a))
          ++ (Who.backupW, Act.dialBackup)
            :: c.backupActs.map (fun a => (Who.backupW, a)) := by
  simp [fullRun, consumeBackup, afterStart, consumeMain, Cfg.init]

theorem fullRun_proj_main (c : Cfg) :
    projW Who.mainW (fullRun c).trace = c.mainActs := by
  rw [fullRun_trace, projW_append, projW_map_same]
  have : projW Who.mainW ((Who.backupW, Act.dialBackup)
      :: c.backupActs.map (fun a => (Who.backupW, a))) = [] := by
    rw [projW, if_neg (by simp)]
    exact projW_map_other Who.mainW Who.backupW (by simp) c.backupActs
  rw [this, List.append_nil]

theorem fullRun_proj_backup (c : Cfg) :
    projW Who.backupW (fullRun c).trace = Act.dialBackup :: c.backupActs := by
  rw [fullRun_trace, projW_append, projW_map_other Who.backupW Who.mainW (by simp)]
  rw [List.nil_append, projW, if_pos rfl, projW_map_same]

/-- Claim C4: in every reachable state of every run of the default
wiring, the failover signal is fired at most once and only by the worker
designated as trigger (the main worker); every backup-worker action in
the trace — the backup provider dial included — occurs strictly after
the firing; and the firing occurs only after the trigger worker's drain
loop has completed, everything before it in that worker's trace being
exactly its finished drain. -/
theorem failover_once_by_trigger_after_drain (c : Cfg) (s : Sys)
    (h : Reach c.init s) :
    s.trace.countP (fun x => isFire x.2) ≤ 1
  ∧ (∀ x ∈ s.trace, isFire x.2 = true → x.1 = Who.mainW)
  ∧ (∀ p x q, s.trace = p ++ x :: q → x.1 = Who.backupW →
      ∃ p1 p2, p = p1 ++ (Who.mainW, Act.fireSignal) :: p2)
  ∧ (∀ p q, s.trace = p ++ (Who.mainW, Act.fireSignal) :: q →
      drainDone c.wM 0 c.buf = true ∧
      projW Who.mainW p = drainAux c.dM c.wM 0 c.buf ++ [Act.finishDrain]) := by
  have inv := wireInv_reach c s h
  have hbzero : countFire (projW Who.backupW s.trace) = 0 := by
    by_cases hst : s.backupStarted = true
    · have hb := inv.bYes hst
      have hsum : countFire (projW Who.backupW s.trace) + countFire s.backupRest
          = countFire (Act.dialBackup :: c.backupActs) := by
        rw [← hb, countFire, countFire, countFire, List.countP_append]
      have h2 : countFire (Act.dialBackup :: c.backupActs) = 0 := by
        have h3 := countFire_backupActs c
        rw [countFire] at h3 ⊢
        rw [List.countP_cons]
        simp [isFire, h3]
      omega
    · have hst2 : s.backupStarted = false := by simpa using hst
      rw [(inv.bNot hst2).1]
      rfl
  have hmle : countFire (projW Who.mainW s.trace) ≤ 1 := by
    have hsum : countFire (projW Who.mainW s.trace) + countFire s.mainRest
        = countFire c.mainActs := by
      rw [← inv.mainSplit, countFire, countFire, countFire, List.countP_append]
    have h2 := countFire_mainActs c
    omega
  have hcount : s.trace.countP (fun x => isFire x.2) ≤ 1 := by
    rw [countFireT_split]
    omega
  refine ⟨hcount, ?_, ?_, ?_⟩
  · intro x hx hfx
    cases hwx : x.1 with
    | mainW => rfl
    | backupW =>
      exfalso
      have hx2 : x.2 ∈ projW Who.backupW s.trace := mem_projW _ _ x hx hwx
      rw [countFire, List.countP_eq_zero] at hbzero
      exact (hbzero x.2 hx2) hfx
  · intro p x q htr hx
    by_cases hf : s.fired = true
    · obtain ⟨P, Q, htr2, hPmain, _, _⟩ := inv.firedShape hf
      obtain ⟨p2, hp2⟩ := mem_split_after (fun y => y.1 = Who.mainW) p q P Q x
        (Who.mainW, Act.fireSignal) (htr.symm.trans htr2) hPmain rfl
        (by intro hg; have hg2 : x.1 = Who.mainW := hg; rw [hx] at hg2;
            exact Who.noConfusion hg2)
      exact ⟨P, p2, hp2⟩
    · have hf2 : s.fired = false := by simpa using hf
      have hxm := inv.notFiredMain hf2 x
        (by rw [htr]; exact List.mem_append_right _ (List.mem_cons_self x q))
      rw [hx] at hxm
      exact absurd hxm (by simp)
  · intro p q htr
    have hfire_projW : Act.fireSignal ∈ projW Who.mainW s.trace := by
      apply mem_projW Who.mainW s.trace (Who.mainW, Act.fireSignal) _ rfl
      rw [htr]
      exact List.mem_append_right _ (List.mem_cons_self _ _)
    have hfmem : Act.fireSignal ∈ c.mainActs := by
      rw [← inv.mainSplit]
      exact List.mem_append_left _ hfire_projW
    have hdone : drainDone c.wM 0 c.buf = true := fire_mem_mainActs_done c hfmem
    refine ⟨hdone, ?_⟩
    have hMA : c.mainActs = (drainAux c.dM c.wM 0 c.buf ++ [Act.finishDrain])
        ++ Act.fireSignal :: passThrough c.pwM 0 c.postM := by
      rw [Cfg.mainActs]
      exact startWorker_trigger_done _ _ _ _ _ hdone
    have hcp : p.countP (fun x => isFire x.2) = 0 := by
      have hc1 := hcount
      rw [htr, List.countP_append, List.countP_cons,
        if_pos (show (fun x : Who × Act => isFire x.2) (Who.mainW, Act.fireSignal)
          = true from rfl)] at hc1
      omega
    have hnofp : Act.fireSignal ∉ projW Who.mainW p := by
      intro hc
      have hmem := projW_mem Who.mainW p Act.fireSignal hc
      rw [List.countP_eq_zero] at hcp
      have := hcp (Who.mainW, Act.fireSignal) hmem
      simp [isFire] at this
    have hnofA : Act.fireSignal ∉ drainAux c.dM c.wM 0 c.buf ++ [Act.finishDrain] := by
      intro hc
      rcases List.mem_append.mp hc with h1 | h1
      · have h0 := countFire_drainAux c.dM c.wM c.buf 0
        rw [countFire, List.countP_eq_zero] at h0
        exact (h0 _ h1) (by simp [isFire])
      · simp at h1
    have e1 := inv.mainSplit
    rw [htr, projW_append] at e1
    have e2 : projW Who.mainW ((Who.mainW, Act.fireSignal) :: q)
        = Act.fireSignal :: projW Who.mainW q := by
      rw [projW, if_pos rfl]
    rw [e2, hMA] at e1
    have e3 : projW Who.mainW p
        ++ Act.fireSignal :: (projW Who.mainW q ++ s.mainRest)
        = (drainAux c.dM c.wM 0 c.buf ++ [Act.finishDrain])
          ++ Act.fireSignal :: passThrough c.pwM 0 c.postM := by
      rw [← e1]
      simp [List.append_assoc]
    exact (first_occ Act.fireSignal _ _ _ _ e3 hnofp hnofA).1

/-- The default-wiring scheduling environment where permits are always
granted at once and every write succeeds, with an empty post-drain
stream. -/
def cfgOf (buf : List Event) : Cfg :=
  { buf := buf
  , dM := fun _ => 0
  , dB := fun _ => 0
  , wM := fun _ => true
  , wB := fun _ => true
  , postM := []
  , postB := []
  , pwM := fun _ => true
  , pwB := fun _ => true }

/-- Witness for C4 at the complete concrete run on a one-event buffer. -/
theorem failover_once_by_trigger_after_drain_inst :
    (fullRun (cfgOf [⟨"1", "p"⟩])).trace.countP (fun x => isFire x.2) ≤ 1 :=
  (failover_once_by_trigger_after_drain (cfgOf [⟨"1", "p"⟩])
    (fullRun (cfgOf [⟨"1", "p"⟩])) (reach_fullRun _ rfl)).1

theorem sendsOf_mainActs_cfgOf (buf : List Event) :
    sendsOf ((cfgOf buf).mainActs) = buf := by
  rw [Cfg.mainActs, sendsOf_startWorker]
  exact sendsOf_drainAux_ok _ _ (fun _ => rfl) buf 0

theorem sendsOf_backupActs_cfgOf (buf : List Event) :
    sendsOf ((cfgOf buf).backupActs) = buf := by
  rw [Cfg.backupActs, sendsOf_startWorker]
  exact sendsOf_drainAux_ok _ _ (fun _ => rfl) buf 0

/-- Claim C1 counterexample: a complete reachable run of the default
wiring with one buffered Event in which the main worker drains the Event
and the backup worker — started only after the failover signal, with
`triggerBackup = false` — drains the very same Event again, its first
action being a drain-loop permit acquisition rather than a pass-through
forward.  This refutes both "begins directly in pass-through mode" and
"no Event in the buffer is drained by more than one worker". -/
theorem backup_worker_redrains_run :
    Reach (cfgOf [⟨"1", "p"⟩]).init (fullRun (cfgOf [⟨"1", "p"⟩]))
  ∧ sendsOf (projW Who.mainW (fullRun (cfgOf [⟨"1", "p"⟩])).trace) = [⟨"1", "p"⟩]
  ∧ sendsOf (projW Who.backupW (fullRun (cfgOf [⟨"1", "p"⟩])).trace) = [⟨"1", "p"⟩]
  ∧ ((cfgOf [⟨"1", "p"⟩]).backupActs).head? = some Act.allowGranted :=
  ⟨reach_fullRun _ rfl, rfl, rfl, rfl⟩

/-- Claim C1 (amended): the backup ProviderWorker is started (with
`triggerBackup = false`) only after the failover signal fires, but it
does not begin in pass-through mode: it runs the same drain loop as the
main worker, so in a completed run of the default wiring every Event of
the backlog is drained by both workers, each to its own provider. -/
theorem backup_worker_redrains_backlog (buf : List Event) :
    Reach (cfgOf buf).init (fullRun (cfgOf buf))
  ∧ sendsOf (projW Who.mainW (fullRun (cfgOf buf)).trace) = buf
  ∧ sendsOf (projW Who.backupW (fullRun (cfgOf buf)).trace) = buf
  ∧ ((cfgOf buf).backupActs).head?
      = (match buf with
         | [] => some Act.finishDrain
         | _ :: _ => some Act.allowGranted) := by
  refine ⟨?_, ?_, ?_, ?_⟩
  · exact reach_fullRun _ (mainActs_any_fire _ (drainDone_ok _ (fun _ => rfl) buf 0))
  · rw [fullRun_proj_main, sendsOf_mainActs_cfgOf]
  · rw [fullRun_proj_backup]
    have : sendsOf (Act.dialBackup :: (cfgOf buf).backupActs)
        = sendsOf ((cfgOf buf).backupActs) := rfl
    rw [this, sendsOf_backupActs_cfgOf]
  · cases buf with
    | nil => rfl
    | cons e rest => rfl
